import Mathlib

/-!
# Ringbuffer (src/dataStructures.h)

A shallow embedding of the class template `Ringbuffer<T, capacity>`.

* The private member `std::deque<T> buffer` is a `List T`, front of the deque
  first: `std::deque::push_back` appends at the end, `std::deque::pop_front`
  drops the first element, `std::deque::size` is the length.
* The template parameter `std::size_t capacity` is a parameter of the type.
* Operations of `std::deque` that have undefined behaviour on an empty deque
  (`back`) are given the outcome `Outcome.undefined`: the class adds no guard
  of its own around them.
-/

namespace Ringbuffer2D

/-- What a call can end in: a returned value, a rejection that the program
reports (an assertion or an exception), or undefined behaviour. -/
inductive Outcome (α : Type) where
  | value (a : α) : Outcome α
  | error : Outcome α
  | undefined : Outcome α
  deriving DecidableEq

/-- Whether a call with outcome `o` is sure not to hand `x` to its caller: it
returns a value other than `x`, or it is rejected with a reported error. An
undefined call is sure of nothing: the program may do anything there,
returning `x` included. -/
def Outcome.excludes {α : Type} [DecidableEq α] (o : Outcome α) (x : α) : Bool :=
  match o with
  | Outcome.value v => decide (v ≠ x)
  | Outcome.error => true
  | Outcome.undefined => false

/-- The class `Ringbuffer<T, capacity>`: its only data member is the deque
`buffer`. -/
structure Ringbuffer (T : Type) (capacity : Nat) where
  buffer : List T
  deriving DecidableEq

namespace Ringbuffer

variable {T : Type} {capacity : Nat}

/-- The implicitly defined default constructor: `buffer` is default-constructed,
that is, empty. Neither the template nor the constructor checks `capacity`. -/
def construct (T : Type) (capacity : Nat) : Outcome (Ringbuffer T capacity) :=
  Outcome.value ⟨[]⟩

/-- The freshly constructed buffer. -/
def fresh (T : Type) (capacity : Nat) : Ringbuffer T capacity := ⟨[]⟩

/-- `push_back`: `buffer.push_back(data)`, then `buffer.pop_front()` if
`buffer.size() > capacity`. -/
def push_back (rb : Ringbuffer T capacity) (data : T) : Ringbuffer T capacity :=
  let buffer := rb.buffer ++ [data]
  if buffer.length > capacity then ⟨buffer.tail⟩ else ⟨buffer⟩

/-- `empty`: `buffer.empty()`. -/
def empty (rb : Ringbuffer T capacity) : Bool := rb.buffer.isEmpty

/-- `size`: `buffer.size()`. -/
def size (rb : Ringbuffer T capacity) : Nat := rb.buffer.length

/-- `begin`: the iterator `buffer.begin()`, as a position in the deque. -/
def begin (_rb : Ringbuffer T capacity) : Nat := 0

/-- `end`: the iterator `buffer.end()`, the position one past the last
element. -/
def end_ (rb : Ringbuffer T capacity) : Nat := rb.buffer.length

/-- Dereferencing an iterator at position `i`. -/
def deref (rb : Ringbuffer T capacity) (i : Nat) : Option T := rb.buffer[i]?

/-- The elements visited by `for (it = begin(); it != end(); ++it)`, in the
order visited. -/
def iterate (rb : Ringbuffer T capacity) : List T :=
  (List.range' rb.begin (rb.end_ - rb.begin)).filterMap rb.deref

/-- `back`: `buffer.back()`, read. On an empty deque `std::deque::back` has
undefined behaviour, and `Ringbuffer::back` calls it unguarded. -/
def back (rb : Ringbuffer T capacity) : Outcome T :=
  match rb.buffer.getLast? with
  | some x => Outcome.value x
  | none => Outcome.undefined

/-- Assigning `y` through the reference returned by `back()`:
`rb.back() = y`. The reference aliases the element at position `size() - 1`
of the deque; on an empty deque the call is undefined behaviour. -/
def back_assign (rb : Ringbuffer T capacity) (y : T) : Outcome (Ringbuffer T capacity) :=
  if rb.buffer.isEmpty then Outcome.undefined
  else Outcome.value ⟨rb.buffer.set (rb.buffer.length - 1) y⟩

/-- Pushing the items of `xs` in order, first item first. -/
def push_all (rb : Ringbuffer T capacity) (xs : List T) : Ringbuffer T capacity :=
  xs.foldl push_back rb

/-- The mutating operations a caller has: `push_back(x)` and assignment
through `back()`. -/
inductive Op (T : Type) where
  | push (x : T) : Op T
  | assign (y : T) : Op T
  deriving DecidableEq

/-- One mutating call. -/
def step (rb : Ringbuffer T capacity) : Op T → Outcome (Ringbuffer T capacity)
  | Op.push x => Outcome.value (rb.push_back x)
  | Op.assign y => rb.back_assign y

/-- A sequence of mutating calls, first call first; it stops at the first call
that does not return. -/
def run (rb : Ringbuffer T capacity) : List (Op T) → Outcome (Ringbuffer T capacity)
  | [] => Outcome.value rb
  | op :: ops =>
    match rb.step op with
    | Outcome.value rb' => run rb' ops
    | Outcome.error => Outcome.error
    | Outcome.undefined => Outcome.undefined

/-! ## Helper lemmas -/

theorem range_filterMap_getElem (l pre : List T) :
    (List.range' pre.length l.length).filterMap (fun i => (pre ++ l)[i]?) = l := by
  induction l generalizing pre with
  | nil => simp
  | cons x l ih =>
    have h := ih (pre ++ [x])
    simp only [List.length_append, List.length_singleton, List.append_assoc,
      List.singleton_append] at h
    simp [List.range', h, List.getElem_append_right]

theorem iterate_eq_buffer (rb : Ringbuffer T capacity) : rb.iterate = rb.buffer := by
  have h := range_filterMap_getElem rb.buffer []
  simpa [iterate, begin, end_, deref] using h

theorem push_back_buffer (rb : Ringbuffer T capacity) (x : T) :
    (rb.push_back x).buffer =
      if capacity < rb.size + 1 then (rb.buffer ++ [x]).tail else rb.buffer ++ [x] := by
  unfold push_back size
  by_cases h : capacity < rb.buffer.length + 1 <;> simp [h]

theorem push_back_size (rb : Ringbuffer T capacity) (x : T) :
    (rb.push_back x).size = if capacity < rb.size + 1 then rb.size else rb.size + 1 := by
  unfold size
  rw [push_back_buffer]
  unfold size
  by_cases h : capacity < rb.buffer.length + 1 <;> simp [h]

theorem push_back_size_le (rb : Ringbuffer T capacity) (x : T) (h : rb.size ≤ capacity) :
    (rb.push_back x).size ≤ capacity := by
  rw [push_back_size]
  split <;> omega

theorem push_all_buffer (rb : Ringbuffer T capacity) (xs : List T) (h : rb.size ≤ capacity) :
    (rb.push_all xs).buffer = (rb.buffer ++ xs).drop (rb.size + xs.length - capacity) := by
  induction xs generalizing rb with
  | nil =>
    have : rb.size - capacity = 0 := by omega
    simp [push_all, this]
  | cons x xs ih =>
    have h' := push_back_size_le rb x h
    have e : rb.push_all (x :: xs) = (rb.push_back x).push_all xs := rfl
    rw [e, ih _ h', push_back_size, push_back_buffer]
    by_cases hc : capacity < rb.size + 1
    · have hs : rb.size = capacity := by omega
      simp only [hc, if_true, List.length_cons]
      have e1 : (rb.buffer ++ [x]).tail ++ xs = (rb.buffer ++ x :: xs).drop 1 := by
        cases hb : rb.buffer <;> simp
      rw [e1, List.drop_drop]
      congr 1
      omega
    · simp only [hc, if_false, List.length_cons, List.append_assoc, List.singleton_append]
      congr 1
      omega

theorem push_all_fresh_buffer (xs : List T) :
    ((fresh T capacity).push_all xs).buffer = xs.drop (xs.length - capacity) := by
  have h := push_all_buffer (fresh T capacity) xs (by simp [fresh, size])
  simpa [fresh, size] using h

theorem back_assign_buffer (rb rb' : Ringbuffer T capacity) (y : T)
    (h : rb.back_assign y = Outcome.value rb') :
    rb.buffer ≠ [] ∧ rb'.buffer = rb.buffer.set (rb.buffer.length - 1) y := by
  unfold back_assign at h
  cases hb : rb.buffer with
  | nil => simp [hb] at h
  | cons a l =>
    simp only [hb, List.isEmpty_cons, Bool.false_eq_true, if_false, Outcome.value.injEq] at h
    subst h
    simp

theorem step_size_le (rb rb' : Ringbuffer T capacity) (op : Op T)
    (h : rb.step op = Outcome.value rb') (hs : rb.size ≤ capacity) : rb'.size ≤ capacity := by
  cases op with
  | push x =>
    simp only [step, Outcome.value.injEq] at h
    subst h
    exact push_back_size_le rb x hs
  | assign y =>
    have h2 := (back_assign_buffer rb rb' y h).2
    unfold size at *
    rw [h2, List.length_set]
    exact hs

theorem run_size_le (ops : List (Op T)) (rb rb' : Ringbuffer T capacity)
    (h : rb.run ops = Outcome.value rb') (hs : rb.size ≤ capacity) : rb'.size ≤ capacity := by
  induction ops generalizing rb with
  | nil =>
    simp only [run, Outcome.value.injEq] at h
    subst h
    exact hs
  | cons op ops ih =>
    unfold run at h
    cases hstep : rb.step op with
    | value rb1 =>
      rw [hstep] at h
      exact ih rb1 h (step_size_le rb rb1 op hstep hs)
    | error => rw [hstep] at h; cases h
    | undefined => rw [hstep] at h; cases h

theorem fresh_size_le : (fresh T capacity).size ≤ capacity := by
  simp [fresh, size]

theorem push_back_buffer_concat (rb : Ringbuffer T capacity) (x : T) (h : 1 ≤ capacity) :
    ∃ pre : List T, (rb.push_back x).buffer = pre ++ [x] := by
  rw [push_back_buffer]
  by_cases hc : capacity < rb.size + 1
  · simp only [hc, if_true]
    cases hb : rb.buffer with
    | nil =>
      simp only [size, hb, List.length_nil] at hc
      omega
    | cons a l => exact ⟨l, by simp⟩
  · simp only [hc, if_false]
    exact ⟨rb.buffer, rfl⟩

theorem set_last_eq (l : List T) (y : T) (h : l ≠ []) :
    l.set (l.length - 1) y = l.dropLast ++ [y] := by
  rcases List.eq_nil_or_concat l with h0 | ⟨init, a, rfl⟩
  · exact absurd h0 h
  · simp

theorem empty_iff_size (rb : Ringbuffer T capacity) : rb.empty = true ↔ rb.size = 0 := by
  unfold empty size
  cases rb.buffer <;> simp

theorem empty_false_iff_size (rb : Ringbuffer T capacity) : rb.empty = false ↔ 0 < rb.size := by
  unfold empty size
  cases rb.buffer <;> simp

theorem push_back_size_ge (rb : Ringbuffer T capacity) (x : T) :
    rb.size ≤ (rb.push_back x).size := by
  rw [push_back_size]
  split <;> omega

theorem step_size_ge (rb rb' : Ringbuffer T capacity) (op : Op T)
    (h : rb.step op = Outcome.value rb') : rb.size ≤ rb'.size := by
  cases op with
  | push x =>
    simp only [step, Outcome.value.injEq] at h
    subst h
    exact push_back_size_ge rb x
  | assign y =>
    have h2 := (back_assign_buffer rb rb' y h).2
    unfold size
    rw [h2, List.length_set]

theorem run_size_ge (ops : List (Op T)) (rb rb' : Ringbuffer T capacity)
    (h : rb.run ops = Outcome.value rb') : rb.size ≤ rb'.size := by
  induction ops generalizing rb with
  | nil =>
    simp only [run, Outcome.value.injEq] at h
    subst h
    exact Nat.le_refl _
  | cons op ops ih =>
    unfold run at h
    cases hstep : rb.step op with
    | value rb1 =>
      rw [hstep] at h
      exact Nat.le_trans (step_size_ge rb rb1 op hstep) (ih rb1 h)
    | error => rw [hstep] at h; cases h
    | undefined => rw [hstep] at h; cases h

theorem step_returns_of_pos (rb : Ringbuffer T capacity) (op : Op T) (h : 0 < rb.size) :
    ∃ rb' : Ringbuffer T capacity, rb.step op = Outcome.value rb' := by
  cases op with
  | push x => exact ⟨rb.push_back x, rfl⟩
  | assign y =>
    have he : rb.buffer.isEmpty = false := (empty_false_iff_size rb).mpr h
    exact ⟨⟨rb.buffer.set (rb.buffer.length - 1) y⟩, by simp [step, back_assign, he]⟩

theorem run_returns_of_pos (ops : List (Op T)) (rb : Ringbuffer T capacity) (h : 0 < rb.size) :
    ∃ rb' : Ringbuffer T capacity, rb.run ops = Outcome.value rb' := by
  induction ops generalizing rb with
  | nil => exact ⟨rb, rfl⟩
  | cons op ops ih =>
    obtain ⟨rb1, h1⟩ := step_returns_of_pos rb op h
    have hpos : 0 < rb1.size := Nat.lt_of_lt_of_le h (step_size_ge rb rb1 op h1)
    obtain ⟨rb2, h2⟩ := ih rb1 hpos
    refine ⟨rb2, ?_⟩
    unfold run
    rw [h1]
    exact h2

theorem push_all_buffer_of_le (rb : Ringbuffer T capacity) (xs : List T)
    (h : rb.size ≤ capacity) (hx : capacity ≤ xs.length) :
    (rb.push_all xs).buffer = xs.drop (xs.length - capacity) := by
  rw [push_all_buffer rb xs h]
  have e : rb.size + xs.length - capacity = rb.buffer.length + (xs.length - capacity) := by
    unfold size
    omega
  rw [e, List.drop_append]

/-! ## The claims -/

/-- C1: pushing `x1..xN` in order into a fresh buffer of any capacity and then
iterating from `begin()` to `end()` yields the last `min(N, capacity)` pushed
items, oldest first; this is `xs` without its first `N - capacity` items, so
for `N > capacity` it is `[x(N-capacity+1) .. xN]`. With capacity 3 the pushes
1,2,3,4,5 leave `[3,4,5]` and a further push of 6 leaves `[4,5,6]`. -/
theorem push_all_iterate_last :
    (∀ (T : Type) (capacity : Nat) (xs : List T),
      ((fresh T capacity).push_all xs).iterate
          = xs.drop (xs.length - min xs.length capacity) ∧
      ((fresh T capacity).push_all xs).iterate = xs.drop (xs.length - capacity) ∧
      ((fresh T capacity).push_all xs).iterate.length = min xs.length capacity) ∧
    ((fresh Nat 3).push_all [1, 2, 3, 4, 5]).iterate = [3, 4, 5] ∧
    (((fresh Nat 3).push_all [1, 2, 3, 4, 5]).push_back 6).iterate = [4, 5, 6] := by
  refine ⟨?_, by decide, by decide⟩
  intro T capacity xs
  rw [iterate_eq_buffer, push_all_fresh_buffer]
  refine ⟨?_, rfl, ?_⟩
  · congr 1
    omega
  · rw [List.length_drop]
    omega

/-- C2: after `N ≥ capacity` calls of `push_back` on a fresh buffer, whatever
the items, `size()` is `capacity`. -/
theorem size_eq_capacity_of_le (T : Type) (capacity : Nat) (xs : List T)
    (h : capacity ≤ xs.length) : ((fresh T capacity).push_all xs).size = capacity := by
  unfold size
  rw [push_all_fresh_buffer, List.length_drop]
  omega

theorem size_eq_capacity_of_le_witness :
    3 ≤ [10, 20, 30, 40].length ∧ ((fresh Nat 3).push_all [10, 20, 30, 40]).size = 3 :=
  ⟨by decide, size_eq_capacity_of_le Nat 3 [10, 20, 30, 40] (by decide)⟩

/-- C3: after `N < capacity` calls of `push_back` on a fresh buffer, `size()`
is `N` and `empty()` is `N == 0`; the fresh buffer itself, which is what the
constructor yields, has `empty() == true` and `size() == 0`. -/
theorem size_eq_length_of_lt (T : Type) (capacity : Nat) (xs : List T)
    (h : xs.length < capacity) :
    ((fresh T capacity).push_all xs).size = xs.length ∧
    ((fresh T capacity).push_all xs).empty = (xs.length == 0) ∧
    construct T capacity = Outcome.value (fresh T capacity) ∧
    (fresh T capacity).empty = true ∧ (fresh T capacity).size = 0 := by
  have hd : xs.length - capacity = 0 := by omega
  refine ⟨?_, ?_, rfl, rfl, rfl⟩
  · unfold size
    rw [push_all_fresh_buffer, hd, List.drop_zero]
  · unfold empty
    rw [push_all_fresh_buffer, hd, List.drop_zero]
    cases xs <;> rfl

theorem size_eq_length_of_lt_witness :
    [7, 8].length < 3 ∧
    ((fresh Nat 3).push_all [7, 8]).size = [7, 8].length ∧
    ((fresh Nat 3).push_all [7, 8]).empty = ([7, 8].length == 0) ∧
    construct Nat 3 = Outcome.value (fresh Nat 3) ∧
    (fresh Nat 3).empty = true ∧ (fresh Nat 3).size = 0 :=
  ⟨by decide, size_eq_length_of_lt Nat 3 [7, 8] (by decide)⟩

/-- C4: every state reached from the fresh buffer by a sequence of `push_back`
calls and assignments through `back()` has `0 ≤ size() ≤ capacity`, and so has
the state right after any further `push_back`. -/
theorem size_le_capacity (T : Type) (capacity : Nat) (ops : List (Op T))
    (rb : Ringbuffer T capacity) (h : (fresh T capacity).run ops = Outcome.value rb) :
    0 ≤ rb.size ∧ rb.size ≤ capacity ∧ ∀ x : T, (rb.push_back x).size ≤ capacity := by
  have hs := run_size_le ops (fresh T capacity) rb h fresh_size_le
  exact ⟨Nat.zero_le _, hs, fun x => push_back_size_le rb x hs⟩

theorem size_le_capacity_witness :
    (fresh Nat 2).run [Op.push 1, Op.assign 5, Op.push 2, Op.push 3, Op.assign 9]
        = Outcome.value ⟨[2, 9]⟩ ∧
    (0 ≤ (⟨[2, 9]⟩ : Ringbuffer Nat 2).size ∧ (⟨[2, 9]⟩ : Ringbuffer Nat 2).size ≤ 2 ∧
      ∀ x : Nat, ((⟨[2, 9]⟩ : Ringbuffer Nat 2).push_back x).size ≤ 2) :=
  ⟨by decide, size_le_capacity Nat 2
    [Op.push 1, Op.assign 5, Op.push 2, Op.push 3, Op.assign 9] ⟨[2, 9]⟩ (by decide)⟩

/-- C5: for every state reached from the fresh buffer by `push_back` calls and
every item, the size after `push_back(item)` is
`min(previous size + 1, capacity)`. -/
theorem push_back_size_min (T : Type) (capacity : Nat) (xs : List T) (x : T) :
    (((fresh T capacity).push_all xs).push_back x).size
      = min (((fresh T capacity).push_all xs).size + 1) capacity := by
  have hs : ((fresh T capacity).push_all xs).size ≤ capacity := by
    unfold size
    rw [push_all_fresh_buffer, List.length_drop]
    omega
  rw [push_back_size]
  split <;> omega

/-- C6: with `capacity ≥ 1`, for every state (reachable or not) and every item
`x`, right after `push_back(x)` the buffer is not empty and `back()` returns
`x`. -/
theorem back_push_back (T : Type) (capacity : Nat) (rb : Ringbuffer T capacity) (x : T)
    (h : 1 ≤ capacity) :
    (rb.push_back x).empty = false ∧ (rb.push_back x).back = Outcome.value x := by
  obtain ⟨pre, hp⟩ := push_back_buffer_concat rb x h
  constructor
  · unfold empty
    rw [hp]
    cases pre <;> rfl
  · unfold back
    rw [hp]
    simp

theorem back_push_back_witness :
    1 ≤ 1 ∧
    (((fresh Nat 1).push_back 10).push_back 20).iterate = [20] ∧
    ((((fresh Nat 1).push_back 10).push_back 20).empty = false ∧
      (((fresh Nat 1).push_back 10).push_back 20).back = Outcome.value 20) :=
  ⟨by decide, by decide, back_push_back Nat 1 ((fresh Nat 1).push_back 10) 20 (by decide)⟩

/-- C7: for every state with contents `s` reached from the fresh buffer by
`push_back` calls and assignments through `back()`, and every item `x`:
`push_back(x)` leaves `s ++ [x]` when `size < capacity` and `tail(s) ++ [x]`
when `size == capacity ≥ 1`; in every full state the element removed is the
head of the deque after the append; of the `size + 1` elements present after
the append at most one is removed, and one is removed exactly when the buffer
was full (`size == capacity`). -/
theorem push_back_eviction (T : Type) (capacity : Nat) (ops : List (Op T))
    (rb : Ringbuffer T capacity) (x : T)
    (h : (fresh T capacity).run ops = Outcome.value rb) :
    (rb.size < capacity → (rb.push_back x).iterate = rb.iterate ++ [x]) ∧
    (rb.size = capacity → 1 ≤ capacity →
      (rb.push_back x).iterate = rb.iterate.tail ++ [x]) ∧
    (rb.size = capacity → (rb.push_back x).iterate = (rb.iterate ++ [x]).tail) ∧
    rb.size + 1 - (rb.push_back x).size ≤ 1 ∧
    (rb.size + 1 - (rb.push_back x).size = 1 ↔ rb.size = capacity) := by
  have hs := run_size_le ops (fresh T capacity) rb h fresh_size_le
  simp only [iterate_eq_buffer]
  refine ⟨?_, ?_, ?_, ?_, ?_⟩
  · intro hlt
    rw [push_back_buffer]
    have hc : ¬ capacity < rb.size + 1 := by omega
    simp only [hc, if_false]
  · intro heq hpos
    rw [push_back_buffer]
    have hc : capacity < rb.size + 1 := by omega
    simp only [hc, if_true]
    cases hb : rb.buffer with
    | nil =>
      simp only [size, hb, List.length_nil] at heq
      omega
    | cons a l => simp
  · intro heq
    rw [push_back_buffer]
    have hc : capacity < rb.size + 1 := by omega
    simp only [hc, if_true]
  · rw [push_back_size]
    split <;> omega
  · rw [push_back_size]
    split <;> omega

theorem push_back_eviction_witness :
    (fresh Nat 2).run [Op.push 1, Op.push 2] = Outcome.value ⟨[1, 2]⟩ ∧
    (⟨[1, 2]⟩ : Ringbuffer Nat 2).size = 2 ∧
    ((⟨[1, 2]⟩ : Ringbuffer Nat 2).push_back 3).iterate = [2, 3] ∧
    (((⟨[1, 2]⟩ : Ringbuffer Nat 2).size < 2 →
        ((⟨[1, 2]⟩ : Ringbuffer Nat 2).push_back 3).iterate
          = (⟨[1, 2]⟩ : Ringbuffer Nat 2).iterate ++ [3]) ∧
      ((⟨[1, 2]⟩ : Ringbuffer Nat 2).size = 2 → 1 ≤ 2 →
        ((⟨[1, 2]⟩ : Ringbuffer Nat 2).push_back 3).iterate
          = (⟨[1, 2]⟩ : Ringbuffer Nat 2).iterate.tail ++ [3]) ∧
      ((⟨[1, 2]⟩ : Ringbuffer Nat 2).size = 2 →
        ((⟨[1, 2]⟩ : Ringbuffer Nat 2).push_back 3).iterate
          = ((⟨[1, 2]⟩ : Ringbuffer Nat 2).iterate ++ [3]).tail) ∧
      (⟨[1, 2]⟩ : Ringbuffer Nat 2).size + 1
          - ((⟨[1, 2]⟩ : Ringbuffer Nat 2).push_back 3).size ≤ 1 ∧
      ((⟨[1, 2]⟩ : Ringbuffer Nat 2).size + 1
          - ((⟨[1, 2]⟩ : Ringbuffer Nat 2).push_back 3).size = 1
        ↔ (⟨[1, 2]⟩ : Ringbuffer Nat 2).size = 2)) :=
  ⟨by decide, by decide, by decide,
    push_back_eviction Nat 2 [Op.push 1, Op.push 2] ⟨[1, 2]⟩ 3 (by decide)⟩

/-- C8: on a non-empty buffer with contents `s`, assigning `y` through the
reference returned by `back()` returns, leaves `size()` unchanged, leaves every
element before the last unchanged and in place, and makes the last element
`y`: the contents become `init(s) ++ [y]`, and a following `back()` reads
`y`. -/
theorem back_assign_frame (T : Type) (capacity : Nat) (rb : Ringbuffer T capacity) (y : T)
    (h : rb.empty = false) :
    ∃ rb' : Ringbuffer T capacity,
      rb.back_assign y = Outcome.value rb' ∧
      rb'.size = rb.size ∧
      rb'.iterate = rb.iterate.dropLast ++ [y] ∧
      rb'.back = Outcome.value y ∧
      (∀ i : Nat, i + 1 < rb.size → rb'.deref i = rb.deref i) ∧
      rb'.deref (rb.size - 1) = some y := by
  have hne : rb.buffer ≠ [] := by
    intro h0
    simp [empty, h0] at h
  have hemp : rb.buffer.isEmpty = false := h
  have hpos : 0 < rb.buffer.length := List.length_pos.mpr hne
  refine ⟨⟨rb.buffer.set (rb.buffer.length - 1) y⟩, ?_, ?_, ?_, ?_, ?_, ?_⟩
  · simp [back_assign, hemp]
  · simp [size]
  · rw [iterate_eq_buffer, iterate_eq_buffer]
    exact set_last_eq rb.buffer y hne
  · unfold back
    simp only [set_last_eq rb.buffer y hne]
    simp
  · intro i hi
    unfold size at hi
    unfold deref
    simp only
    rw [List.getElem?_set_ne]
    omega
  · unfold deref size
    simp only
    rw [List.getElem?_set_self]
    omega

theorem back_assign_frame_witness :
    (⟨[4, 5, 6]⟩ : Ringbuffer Nat 3).empty = false ∧
    (⟨[4, 5, 6]⟩ : Ringbuffer Nat 3).back_assign 60 = Outcome.value ⟨[4, 5, 60]⟩ ∧
    ∃ rb' : Ringbuffer Nat 3,
      (⟨[4, 5, 6]⟩ : Ringbuffer Nat 3).back_assign 60 = Outcome.value rb' ∧
      rb'.size = (⟨[4, 5, 6]⟩ : Ringbuffer Nat 3).size ∧
      rb'.iterate = (⟨[4, 5, 6]⟩ : Ringbuffer Nat 3).iterate.dropLast ++ [60] ∧
      rb'.back = Outcome.value 60 ∧
      (∀ i : Nat, i + 1 < (⟨[4, 5, 6]⟩ : Ringbuffer Nat 3).size →
        rb'.deref i = (⟨[4, 5, 6]⟩ : Ringbuffer Nat 3).deref i) ∧
      rb'.deref ((⟨[4, 5, 6]⟩ : Ringbuffer Nat 3).size - 1) = some 60 :=
  ⟨by decide, by decide, back_assign_frame Nat 3 ⟨[4, 5, 6]⟩ 60 (by decide)⟩

/-- C9, as amended: `back()` returns a value, the last element, exactly when
`empty()` is false. On an empty buffer the call is not rejected: the class has
no guard, `std::deque::back` is called on an empty deque, and the behaviour is
undefined; no call of `back()` ends in a reported error. -/
theorem back_value_iff_not_empty (T : Type) (capacity : Nat) (rb : Ringbuffer T capacity) :
    (rb.empty = false ↔ ∃ v : T, rb.back = Outcome.value v ∧ rb.iterate.getLast? = some v) ∧
    (rb.empty = true ↔ rb.back = Outcome.undefined) ∧
    rb.back ≠ Outcome.error := by
  rw [iterate_eq_buffer]
  unfold empty back
  cases hl : rb.buffer.getLast? with
  | none =>
    have hb : rb.buffer = [] := List.getLast?_eq_none_iff.mp hl
    simp [hb]
  | some v =>
    have hb : rb.buffer ≠ [] := by
      intro h0
      simp [h0] at hl
    have he : rb.buffer.isEmpty = false := by
      cases hr : rb.buffer with
      | nil => exact absurd hr hb
      | cons a l => rfl
    simp [he]

/-- C9, the claim as stated fails: on the empty buffer of capacity 3,
`empty()` is true and `back()` is undefined behaviour, not a reported error. -/
theorem back_empty_not_rejected :
    (fresh Nat 3).empty = true ∧
    (fresh Nat 3).back = Outcome.undefined ∧
    (fresh Nat 3).back ≠ Outcome.error := by
  decide

/-- C10, as amended: construction checks nothing: for every capacity, 0
included, it succeeds and yields an empty buffer of size 0, so a constructed
buffer need not have `capacity ≥ 1`. -/
theorem construct_succeeds (T : Type) (capacity : Nat) :
    ∃ rb : Ringbuffer T capacity,
      construct T capacity = Outcome.value rb ∧ rb.empty = true ∧ rb.size = 0 ∧
      rb.iterate = [] :=
  ⟨fresh T capacity, rfl, rfl, rfl, rfl⟩

/-- C10, the claim as stated fails: constructing a buffer with capacity 0 is
not rejected, it yields an (empty) buffer. -/
theorem construct_zero_not_rejected :
    construct Nat 0 = Outcome.value (fresh Nat 0) ∧ construct Nat 0 ≠ Outcome.error := by
  decide

/-- C11: in every state, `empty()` is true if and only if `size() == 0`, and
`size() == 0` if and only if iterating from `begin()` to `end()` visits no
element. -/
theorem empty_iff_size_zero_iff_iterate_nil (T : Type) (capacity : Nat)
    (rb : Ringbuffer T capacity) :
    (rb.empty = true ↔ rb.size = 0) ∧ (rb.size = 0 ↔ rb.iterate = []) ∧
    (rb.empty = true ↔ rb.iterate = []) := by
  rw [iterate_eq_buffer]
  unfold empty size
  cases rb.buffer <;> simp

/-- C12, as amended: with capacity 0, `push_back(x)` on the empty buffer
appends `x` (the deque then has size 1, more than the capacity) and evicts it
at once, leaving the empty buffer; so after any sequence of pushes on the
fresh buffer `empty()` is true, `size()` is 0 and iteration visits nothing.
After a further `push_back(x)` the buffer is empty again, so `back()` is called
outside its precondition: the call is undefined behaviour, and what it returns
is neither promised nor excluded. -/
theorem capacity_zero_always_empty (T : Type) (xs : List T) (x : T) :
    ((fresh T 0).buffer ++ [x]).length > 0 ∧
    ((fresh T 0).buffer ++ [x]).tail = [] ∧
    (fresh T 0).push_back x = fresh T 0 ∧
    (fresh T 0).push_all xs = fresh T 0 ∧
    ((fresh T 0).push_all xs).empty = true ∧
    ((fresh T 0).push_all xs).size = 0 ∧
    ((fresh T 0).push_all xs).iterate = [] ∧
    (((fresh T 0).push_all xs).push_back x).empty = true ∧
    (((fresh T 0).push_all xs).push_back x).iterate = [] ∧
    (((fresh T 0).push_all xs).push_back x).back = Outcome.undefined := by
  have hall : (fresh T 0).push_all xs = fresh T 0 := by
    have hb := @push_all_fresh_buffer T 0 xs
    simp only [Nat.sub_zero, List.drop_length] at hb
    cases hp : (fresh T 0).push_all xs with
    | mk b =>
      rw [hp] at hb
      simp only at hb
      rw [hb]
      rfl
  have hone : (fresh T 0).push_back x = fresh T 0 := rfl
  refine ⟨by simp, rfl, hone, hall, ?_, ?_, ?_, ?_, ?_, ?_⟩
  · rw [hall]; rfl
  · rw [hall]; rfl
  · rw [hall, iterate_eq_buffer]; rfl
  · rw [hall, hone]; rfl
  · rw [hall, hone, iterate_eq_buffer]; rfl
  · rw [hall, hone]; rfl

/-- C12, the claim as stated fails in its last clause: on the capacity-0 buffer,
after `push_back(7)` the buffer is empty and `back()` is an unguarded
`std::deque::back` on an empty deque, undefined behaviour; so it is not
excluded that the call returns 7. -/
theorem capacity_zero_back_not_excluded :
    ((fresh Nat 0).push_back 7).empty = true ∧
    ((fresh Nat 0).push_back 7).back = Outcome.undefined ∧
    ((fresh Nat 0).push_back 7).back.excludes 7 = false := by
  decide

/-- C13: for every capacity, any two states reached from the fresh buffer (by
`push_back` calls and assignments through `back()`) and every sequence `xs` of
at least `capacity` items, pushing `xs` in order onto both leaves the same
contents, the last `capacity` items of `xs`. -/
theorem window_forgets_history (T : Type) (capacity : Nat) (ops1 ops2 : List (Op T))
    (rb1 rb2 : Ringbuffer T capacity) (xs : List T)
    (h1 : (fresh T capacity).run ops1 = Outcome.value rb1)
    (h2 : (fresh T capacity).run ops2 = Outcome.value rb2)
    (hx : capacity ≤ xs.length) :
    (rb1.push_all xs).iterate = (rb2.push_all xs).iterate ∧
    (rb1.push_all xs).iterate = xs.drop (xs.length - capacity) ∧
    (rb1.push_all xs).iterate.length = capacity ∧
    rb1.push_all xs = rb2.push_all xs := by
  have hs1 := run_size_le ops1 (fresh T capacity) rb1 h1 fresh_size_le
  have hs2 := run_size_le ops2 (fresh T capacity) rb2 h2 fresh_size_le
  have e1 := push_all_buffer_of_le rb1 xs hs1 hx
  have e2 := push_all_buffer_of_le rb2 xs hs2 hx
  simp only [iterate_eq_buffer]
  refine ⟨by rw [e1, e2], e1, ?_, ?_⟩
  · rw [e1, List.length_drop]
    omega
  · cases hp1 : rb1.push_all xs with
    | mk b1 =>
      cases hp2 : rb2.push_all xs with
      | mk b2 =>
        rw [hp1] at e1
        rw [hp2] at e2
        simp only at e1 e2
        rw [e1, e2]

theorem window_forgets_history_witness :
    (fresh Nat 2).run [Op.push 1] = Outcome.value ⟨[1]⟩ ∧
    (fresh Nat 2).run [Op.push 7, Op.push 8, Op.assign 9] = Outcome.value ⟨[7, 9]⟩ ∧
    2 ≤ [4, 5, 6].length ∧
    ((⟨[1]⟩ : Ringbuffer Nat 2).push_all [4, 5, 6]).iterate = [5, 6] ∧
    (((⟨[1]⟩ : Ringbuffer Nat 2).push_all [4, 5, 6]).iterate
        = ((⟨[7, 9]⟩ : Ringbuffer Nat 2).push_all [4, 5, 6]).iterate ∧
      ((⟨[1]⟩ : Ringbuffer Nat 2).push_all [4, 5, 6]).iterate
        = [4, 5, 6].drop ([4, 5, 6].length - 2) ∧
      ((⟨[1]⟩ : Ringbuffer Nat 2).push_all [4, 5, 6]).iterate.length = 2 ∧
      (⟨[1]⟩ : Ringbuffer Nat 2).push_all [4, 5, 6]
        = (⟨[7, 9]⟩ : Ringbuffer Nat 2).push_all [4, 5, 6]) :=
  ⟨by decide, by decide, by decide, by decide,
    window_forgets_history Nat 2 [Op.push 1] [Op.push 7, Op.push 8, Op.assign 9]
      ⟨[1]⟩ ⟨[7, 9]⟩ [4, 5, 6] (by decide) (by decide) (by decide)⟩

/-- C14: for every capacity (so for `capacity ≥ 1`) and every state (so every
reachable one), `size()` does not decrease across `push_back`, nor across any
sequence of `push_back` calls and assignments through `back()`; and from a
non-empty state every such sequence returns and ends in a non-empty state.
The queries and iteration are pure: they leave the state as it is. -/
theorem size_never_decreases (T : Type) (capacity : Nat) (rb : Ringbuffer T capacity)
    (ops : List (Op T)) :
    (∀ x : T, rb.size ≤ (rb.push_back x).size) ∧
    (∀ rb' : Ringbuffer T capacity, rb.run ops = Outcome.value rb' → rb.size ≤ rb'.size) ∧
    (rb.empty = false →
      (∀ x : T, (rb.push_back x).empty = false) ∧
      ∃ rb' : Ringbuffer T capacity, rb.run ops = Outcome.value rb' ∧ rb'.empty = false) := by
  refine ⟨fun x => push_back_size_ge rb x, fun rb' hr => run_size_ge ops rb rb' hr, ?_⟩
  intro h
  have hpos : 0 < rb.size := (empty_false_iff_size rb).mp h
  constructor
  · intro x
    exact (empty_false_iff_size _).mpr (Nat.lt_of_lt_of_le hpos (push_back_size_ge rb x))
  · obtain ⟨rb', hr⟩ := run_returns_of_pos ops rb hpos
    have hge := run_size_ge ops rb rb' hr
    exact ⟨rb', hr, (empty_false_iff_size rb').mpr (Nat.lt_of_lt_of_le hpos hge)⟩

theorem size_never_decreases_witness :
    (fresh Nat 2).run [Op.push 1] = Outcome.value ⟨[1]⟩ ∧
    (⟨[1]⟩ : Ringbuffer Nat 2).empty = false ∧
    (⟨[1]⟩ : Ringbuffer Nat 2).run [Op.assign 5, Op.push 2, Op.push 3, Op.assign 9]
      = Outcome.value ⟨[2, 9]⟩ ∧
    (⟨[1]⟩ : Ringbuffer Nat 2).size ≤ (⟨[2, 9]⟩ : Ringbuffer Nat 2).size ∧
    ((∀ x : Nat, ((⟨[1]⟩ : Ringbuffer Nat 2).push_back x).empty = false) ∧
      ∃ rb' : Ringbuffer Nat 2,
        (⟨[1]⟩ : Ringbuffer Nat 2).run [Op.assign 5, Op.push 2, Op.push 3, Op.assign 9]
          = Outcome.value rb' ∧ rb'.empty = false) :=
  ⟨by decide, by decide, by decide,
    (size_never_decreases Nat 2 ⟨[1]⟩
      [Op.assign 5, Op.push 2, Op.push 3, Op.assign 9]).2.1 ⟨[2, 9]⟩ (by decide),
    (size_never_decreases Nat 2 ⟨[1]⟩
      [Op.assign 5, Op.push 2, Op.push 3, Op.assign 9]).2.2 (by decide)⟩

end Ringbuffer

end Ringbuffer2D

